import Mathlib

/-!
Verification of the EM Gaussian-mixture fitting module `EMGM.py`
(soft EM algorithm: initialization via k-means labels, iterated
expectation/maximization with a log-likelihood convergence test, and
the numerically sensitive helpers `loggausspdf` and `logsumexp`).

The embedding follows the Python source function by function.  Exact
arithmetic is modelled over `ℝ`; where the code manifestly relies on
IEEE special values (`-inf` initial log-likelihoods, the `logsumexp`
edge case, the convergence test against an `-inf` sentinel) scalars are
wrapped in the type `FP K` below, which adjoins `nan`, `-inf`, `+inf`
to a field of finite values `K`.  Exceptions raised by `numpy`
(Cholesky failure, out-of-bounds array writes) are modelled by
`Option`: `none` is a raised error.
-/

set_option maxHeartbeats 1000000
set_option maxRecDepth 100000

/-- IEEE-style extended scalar: the special values `nan`, `-inf`, `+inf`
plus finite values drawn from `K` (exact arithmetic stands in for the
finite floats). -/
inductive FP (K : Type) where
  | nan : FP K
  | ninf : FP K
  | pinf : FP K
  | val : K → FP K
deriving DecidableEq

namespace FP

variable {K : Type} [LinearOrderedField K]

/-- IEEE negation. -/
def neg : FP K → FP K
  | nan => nan
  | ninf => pinf
  | pinf => ninf
  | val a => val (-a)

/-- IEEE addition: `nan` propagates, `+inf + -inf = nan`. -/
def add : FP K → FP K → FP K
  | nan, _ => nan
  | _, nan => nan
  | pinf, ninf => nan
  | ninf, pinf => nan
  | pinf, _ => pinf
  | ninf, _ => ninf
  | val _, pinf => pinf
  | val _, ninf => ninf
  | val a, val b => val (a + b)

/-- IEEE subtraction; in particular `-inf - -inf = nan`. -/
def sub (a b : FP K) : FP K := a.add b.neg

/-- IEEE absolute value. -/
def fabs : FP K → FP K
  | nan => nan
  | ninf => pinf
  | pinf => pinf
  | val a => val |a|

/-- IEEE multiplication: `nan` propagates, `inf * 0 = nan`. -/
def mul : FP K → FP K → FP K
  | nan, _ => nan
  | _, nan => nan
  | pinf, pinf => pinf
  | pinf, ninf => ninf
  | ninf, pinf => ninf
  | ninf, ninf => pinf
  | pinf, val b => if 0 < b then pinf else if b < 0 then ninf else nan
  | ninf, val b => if 0 < b then ninf else if b < 0 then pinf else nan
  | val a, pinf => if 0 < a then pinf else if a < 0 then ninf else nan
  | val a, ninf => if 0 < a then ninf else if a < 0 then pinf else nan
  | val a, val b => val (a * b)

/-- IEEE comparison `<`: any comparison involving `nan` is false. -/
def lt : FP K → FP K → Bool
  | nan, _ => false
  | _, nan => false
  | ninf, ninf => false
  | ninf, _ => true
  | pinf, _ => false
  | val _, ninf => false
  | val _, pinf => true
  | val a, val b => decide (a < b)

/-- Binary maximum as in `np.max`: `nan` propagates. -/
def fmax : FP K → FP K → FP K
  | nan, _ => nan
  | _, nan => nan
  | pinf, _ => pinf
  | _, pinf => pinf
  | ninf, b => b
  | a, ninf => a
  | val a, val b => val (Max.max a b)

/-- Model of `np.isfinite`. -/
def isfinite : FP K → Bool
  | val _ => true
  | _ => false

/-- Model of `np.exp` on extended reals: `exp(-inf) = 0`. -/
noncomputable def fexp : FP ℝ → FP ℝ
  | nan => nan
  | ninf => val 0
  | pinf => pinf
  | val a => val (Real.exp a)

/-- Model of `np.log` on extended reals: `log 0 = -inf`, `log` of a negative is `nan`. -/
noncomputable def flog : FP ℝ → FP ℝ
  | nan => nan
  | ninf => nan
  | pinf => pinf
  | val a => if 0 < a then val (Real.log a) else if a = 0 then ninf else nan

/-- The real number `exp x` an entry contributes to a sum of exponentials
(`exp(-inf) = 0`). -/
noncomputable def expVal : FP ℝ → ℝ
  | val a => Real.exp a
  | _ => 0

end FP

/-- One slice (along `dim`) of the source `logsumexp(x, dim)`: take the
slice maximum `y`, subtract it, exponentiate, sum, take the log and add
`y` back; for a slice whose maximum is not finite the result is the
maximum itself (the explicit `s[i] = y[i]` fix-up in the source). -/
noncomputable def logsumexpRow (xs : List (FP ℝ)) : FP ℝ :=
  let y := xs.foldr FP.fmax FP.ninf
  let s := FP.add y
    (FP.flog ((xs.map (fun a => FP.fexp (FP.sub a y))).foldl FP.add (FP.val 0)))
  if y.isfinite then s else y

section LogSumExpLemmas

/-- Folding `fmax` over a list of `-inf`/finite entries yields `-inf`
exactly when all entries are `-inf`, and otherwise a finite value that is
attained in the list. -/
lemma foldr_fmax_spec (xs : List (FP ℝ))
    (hv : ∀ a ∈ xs, a = FP.ninf ∨ ∃ r, a = FP.val r) :
    (xs.foldr FP.fmax FP.ninf = FP.ninf ∧ ∀ a ∈ xs, a = FP.ninf)
    ∨ ∃ m, xs.foldr FP.fmax FP.ninf = FP.val m ∧ FP.val m ∈ xs := by
  induction xs with
  | nil => exact Or.inl ⟨rfl, by simp⟩
  | cons a xs ih =>
    have hv' : ∀ b ∈ xs, b = FP.ninf ∨ ∃ r, b = FP.val r :=
      fun b hb => hv b (List.mem_cons_of_mem a hb)
    rcases hv a (List.mem_cons_self a xs) with ha | ⟨r, ha⟩
    · subst ha
      rcases ih hv' with ⟨hfold, hall⟩ | ⟨m, hfold, hmem⟩
      · refine Or.inl ⟨?_, ?_⟩
        · simp [List.foldr_cons, hfold, FP.fmax]
        · intro b hb
          rcases List.mem_cons.mp hb with hb | hb
          · exact hb
          · exact hall b hb
      · refine Or.inr ⟨m, ?_, List.mem_cons_of_mem _ hmem⟩
        simp [List.foldr_cons, hfold, FP.fmax]
    · subst ha
      rcases ih hv' with ⟨hfold, _⟩ | ⟨m, hfold, hmem⟩
      · refine Or.inr ⟨r, ?_, List.mem_cons_self _ _⟩
        simp [List.foldr_cons, hfold, FP.fmax]
      · refine Or.inr ⟨Max.max r m, ?_, ?_⟩
        · simp [List.foldr_cons, hfold, FP.fmax]
        · rcases max_choice r m with h | h
          · rw [h]; exact List.mem_cons_self _ _
          · rw [h]; exact List.mem_cons_of_mem _ hmem

/-- Folding IEEE addition over a list of finite values starting from a
finite accumulator adds up the payloads. -/
lemma foldl_add_vals (l : List ℝ) (c : ℝ) :
    (l.map FP.val).foldl FP.add (FP.val c) = FP.val (c + l.sum) := by
  induction l generalizing c with
  | nil => simp
  | cons r l ih =>
    simp only [List.map_cons, List.foldl_cons, FP.add, List.sum_cons]
    rw [ih]
    ring_nf

/-- Every member of a list of nonnegative reals is at most the sum. -/
lemma list_le_sum (l : List ℝ) (h : ∀ x ∈ l, 0 ≤ x) :
    ∀ x ∈ l, x ≤ l.sum := by
  induction l with
  | nil => simp
  | cons a l ih =>
    intro x hx
    have hl : ∀ y ∈ l, 0 ≤ y := fun y hy => h y (List.mem_cons_of_mem a hy)
    rcases List.mem_cons.mp hx with rfl | hx
    · have : 0 ≤ l.sum := List.sum_nonneg hl
      simp only [List.sum_cons]
      linarith
    · have := ih hl x hx
      have ha : 0 ≤ a := h a (List.mem_cons_self a l)
      simp only [List.sum_cons]
      linarith

end LogSumExpLemmas

/-- C5: on every slice of `logsumexp` consisting of `-inf` and finite
entries, an all-`-inf` slice yields `-inf` (not NaN), while a slice with
a finite maximum yields exactly `log (sum (exp xs))`, computed stably by
subtracting the maximum, exponentiating, summing, taking the log and
adding the maximum back. -/
theorem logsumexp_neginf_and_finite (xs : List (FP ℝ))
    (hv : ∀ a ∈ xs, a = FP.ninf ∨ ∃ r, a = FP.val r) :
    ((∀ a ∈ xs, a = FP.ninf) → logsumexpRow xs = FP.ninf)
    ∧ ((∃ r, FP.val r ∈ xs) →
        logsumexpRow xs = FP.val (Real.log ((xs.map FP.expVal).sum))) := by
  constructor
  · intro hall
    rcases foldr_fmax_spec xs hv with ⟨hfold, _⟩ | ⟨m, _, hmem⟩
    · unfold logsumexpRow
      rw [hfold]
      simp [FP.isfinite]
    · exact absurd (hall _ hmem) (by simp)
  · intro ⟨r0, hr0⟩
    rcases foldr_fmax_spec xs hv with ⟨_, hall⟩ | ⟨m, hfold, hmem⟩
    · exact absurd (hall _ hr0) (by simp)
    · -- the mapped exp list consists of finite values
      have hmap : xs.map (fun a => FP.fexp (FP.sub a (FP.val m)))
          = (xs.map (fun a => FP.expVal a * Real.exp (-m))).map FP.val := by
        rw [List.map_map]
        refine List.map_congr_left ?_
        intro a ha
        rcases hv a ha with rfl | ⟨r, rfl⟩
        · simp [FP.sub, FP.neg, FP.add, FP.fexp, FP.expVal, Function.comp]
        · simp only [Function.comp_apply, FP.sub, FP.neg, FP.add, FP.fexp, FP.expVal]
          rw [← Real.exp_add]
      have hsum : (xs.map (fun a => FP.expVal a * Real.exp (-m))).sum
          = (xs.map FP.expVal).sum * Real.exp (-m) := by
        rw [← List.sum_map_mul_right]
      have hpos : 0 < (xs.map FP.expVal).sum := by
        have hnn : ∀ x ∈ xs.map FP.expVal, 0 ≤ x := by
          intro x hx
          rcases List.mem_map.mp hx with ⟨a, _, rfl⟩
          cases a <;> simp [FP.expVal]
          all_goals positivity
        have hmm : FP.expVal (FP.val m) ∈ xs.map FP.expVal :=
          List.mem_map_of_mem FP.expVal hmem
        have := list_le_sum _ hnn _ hmm
        simp only [FP.expVal] at this
        calc (0:ℝ) < Real.exp m := Real.exp_pos m
        _ ≤ _ := this
      unfold logsumexpRow
      rw [hfold]
      simp only [FP.isfinite, if_pos]
      rw [hmap, foldl_add_vals, hsum, zero_add]
      have hSpos : 0 < (xs.map FP.expVal).sum * Real.exp (-m) :=
        mul_pos hpos (Real.exp_pos _)
      simp only [FP.flog, if_pos hSpos, FP.add]
      rw [Real.log_mul (ne_of_gt hpos) (ne_of_gt (Real.exp_pos _)), Real.log_exp]
      ring_nf

/-- C5 witness: a slice of two `-inf` entries gives `-inf`; the slice
`[0]` gives `log (exp 0)`. -/
theorem logsumexp_neginf_and_finite_witness :
    logsumexpRow [FP.ninf, FP.ninf] = FP.ninf
    ∧ logsumexpRow [FP.val 0] =
        FP.val (Real.log (([FP.val 0].map FP.expVal).sum)) :=
  ⟨(logsumexp_neginf_and_finite [FP.ninf, FP.ninf]
      (by intro a ha; simp at ha; simp [ha])).1
      (by intro a ha; simpa using ha),
   (logsumexp_neginf_and_finite [FP.val 0]
      (by intro a ha; simp at ha; simp [ha])).2 ⟨0, by simp⟩⟩

/-- Translation of the Matlab `dummyvar`: row `i` is the one-hot vector of
label `idx[i]`.  The width is `np.max(idx) + 1`, the largest label plus
one, not the number of clusters requested from k-means. -/
def dummyvar (idx : List ℕ) : List (List ℕ) :=
  let n := idx.foldr max 0 + 1
  idx.map (fun j => (List.range n).map (fun c => if c = j then 1 else 0))

/-- The source `initialization(X, nGM)` runs `scipy.cluster.vq.kmeans2` (an external
library routine, whose hard labels we take as the parameter `idx`, one
label below `nGM` per sample) and one-hot encodes the labels through
`dummyvar`. -/
def initialization (idx : List ℕ) : List (List ℕ) := dummyvar idx

/-- C3 counterexample: with `nGM = 2` components and k-means labels
`[0, 0]` (cluster 1 received no points), the returned responsibility
matrix has rows of length 1, not `nGM = 2`: the empty trailing component
is dropped, not kept as a zero column. -/
theorem init_width_counterexample :
    ((initialization [0, 0]).getD 0 []).length = 1 := by decide

/-- C3 amended: `initialization` returns one row per sample; each row is
the one-hot vector of that sample's label, of width `max(idx) + 1` (so a
column of zeros appears only for an empty cluster whose index is below
the largest used label, and the component count shrinks below `nGM`
whenever the highest-numbered clusters are empty). -/
theorem initialization_onehot_rows (idx : List ℕ) (i c : ℕ)
    (hi : i < idx.length) (hc : c < idx.foldr max 0 + 1) :
    (initialization idx).length = idx.length
    ∧ ((initialization idx).getD i []).length = idx.foldr max 0 + 1
    ∧ ((initialization idx).getD i []).getD c 0
        = if c = idx.getD i 0 then 1 else 0 := by
  have hi' : i < (initialization idx).length := by
    simpa [initialization, dummyvar] using hi
  refine ⟨by simp [initialization, dummyvar], ?_, ?_⟩
  · rw [List.getD_eq_getElem _ _ hi']
    simp [initialization, dummyvar]
  · rw [List.getD_eq_getElem _ _ hi']
    have hrow : (initialization idx)[i] =
        (List.range (idx.foldr max 0 + 1)).map
          (fun c => if c = idx[i] then 1 else 0) := by
      simp [initialization, dummyvar]
    rw [hrow]
    have hc' : c < ((List.range (idx.foldr max 0 + 1)).map
        (fun c => if c = idx[i] then 1 else 0)).length := by
      simpa using hc
    rw [List.getD_eq_getElem _ _ hc']
    simp [List.getElem?_eq_getElem hi]

/-- C3 amended witness at labels `[1, 0]`, row 0, column 0. -/
theorem initialization_onehot_rows_witness :
    (initialization [1, 0]).length = [1, 0].length
    ∧ ((initialization [1, 0]).getD 0 []).length = [1, 0].foldr max 0 + 1
    ∧ ((initialization [1, 0]).getD 0 []).getD 0 0
        = if 0 = [1, 0].getD 0 0 then 1 else 0 :=
  initialization_onehot_rows [1, 0] 0 0 (by decide) (by decide)

/-! ### The `EMGM` driver loop -/

/-- The fixed iteration cap `maxiter = 500`, which is also the length of
the log-likelihood array `llh = np.full([maxiter], -np.inf)`. -/
def maxiter : ℕ := 500

variable {K : Type} [LinearOrderedField K] {α β : Type}

/-- The convergence test of the driver, in IEEE arithmetic:
`abs(llh[t-1] - llh[t-2]) < tol * abs(llh[t-1])` with `tol = 1e-5`. -/
def convTest (a b : FP K) : Bool :=
  FP.lt (FP.fabs (FP.sub a b)) (FP.mul (FP.val (1 / 100000)) (FP.fabs a))

/-- Loop state of `EMGM`: the counter `t`, the `llh` array (as a map from
index to entry), the `converged` flag, the current responsibility matrix
`R` and the parameters `(mu, Sigma, pi)` of the last completed
maximization step (`none` before the first iteration).  The driver is
generic in the parameter type `α`, the responsibility type `β` and the
two step functions `M` (maximization) and `E` (expectation, returning
the new responsibilities and the scalar log-likelihood), which the
concrete `maximization` and `expectation` of the source instantiate. -/
structure EMSt (K α β : Type) where
  t : ℕ
  llh : ℕ → FP K
  conv : Bool
  R : β
  params : Option α

/-- One iteration of the loop body, with the array write not yet bounds
checked: increment `t`; on the second and later iterations (`t > 1`)
recompute `converged` from `llh[t-1]` and `llh[t-2]` (which, after the
increment, are `llh` at the old `t` and `t - 1`); then run maximization
and expectation and store the new log-likelihood at index `t`. -/
def emgmStep (M : β → α) (E : α → β × FP K) (s : EMSt K α β) : EMSt K α β :=
  ⟨s.t + 1,
   Function.update s.llh (s.t + 1) (E (M s.R)).2,
   if 1 < s.t + 1 then convTest (s.llh s.t) (s.llh (s.t - 1)) else s.conv,
   (E (M s.R)).1,
   some (M s.R)⟩

/-- The loop body including the numpy bounds check: the assignment
`llh[t]` is legal only for `t < maxiter` (valid indices of the
length-`maxiter` array are `0 .. maxiter-1`, but the code stores at the
1-based counter `t`); an out-of-range index raises `IndexError`,
modelled as `none`. -/
def emgmBody (M : β → α) (E : α → β × FP K) (s : EMSt K α β) :
    Option (EMSt K α β) :=
  if s.t + 1 < maxiter then some (emgmStep M E s) else none

/-- The loop `while (not converged) and t < maxiter`, with `fuel`
counting the remaining permitted iterations `maxiter - t`. -/
def emgmGo (M : β → α) (E : α → β × FP K) :
    ℕ → EMSt K α β → Option (EMSt K α β)
  | 0, s => some s
  | fuel + 1, s =>
    if s.conv then some s
    else
      match emgmBody M E s with
      | none => none
      | some s2 => emgmGo M E fuel s2

/-- Initial driver state: `t = 0`, `llh` filled with `-inf`, not
converged, responsibilities from `initialization`, no parameters yet. -/
def stateInit (R0 : β) : EMSt K α β := ⟨0, fun _ => FP.ninf, false, R0, none⟩

/-- The (bounds-unchecked) state after `n` iterations of the loop body. -/
def stateAt (M : β → α) (E : α → β × FP K) (R0 : β) (n : ℕ) : EMSt K α β :=
  (emgmStep M E)^[n] (stateInit R0)

/-- The log-likelihood computed by expectation at iteration `n ≥ 1`
(the value stored at `llh[n]`). -/
def llhAt (M : β → α) (E : α → β × FP K) (R0 : β) (n : ℕ) : FP K :=
  (stateAt M E R0 n).llh n

/-- Terminal states of the driver, as reported by the printed notice. -/
inductive EMStatus where
  | CONVERGED : EMStatus
  | EXHAUSTED : EMStatus
deriving DecidableEq

/-- Which notice a final state prints (`'Converged in t-1 steps'` versus
`'Not converged in maxiter steps'`). -/
def EMGMstatus (s : EMSt K α β) : EMStatus :=
  if s.conv then EMStatus.CONVERGED else EMStatus.EXHAUSTED

/-- The driver `EMGM`: starting from the responsibilities produced by
`initialization`, run the EM loop; `none` is an uncaught exception. -/
def EMGM (M : β → α) (E : α → β × FP K) (R0 : β) : Option (EMSt K α β) :=
  emgmGo M E maxiter (stateInit R0)

section DriverLemmas

variable (M : β → α) (E : α → β × FP K) (R0 : β)

lemma stateAt_succ (n : ℕ) :
    stateAt M E R0 (n + 1) = emgmStep M E (stateAt M E R0 n) :=
  Function.iterate_succ_apply' _ _ _

lemma stateAt_t (n : ℕ) : (stateAt M E R0 n).t = n := by
  induction n with
  | zero => rfl
  | succ n ih =>
    rw [stateAt_succ]
    simp only [emgmStep, ih]

/-- Entries of `llh` beyond the current iteration still hold the
`-inf` fill. -/
lemma stateAt_llh_future : ∀ n j, n < j → (stateAt M E R0 n).llh j = FP.ninf := by
  intro n
  induction n with
  | zero => intro j _; rfl
  | succ n ih =>
    intro j hj
    rw [stateAt_succ]
    simp only [emgmStep]
    rw [stateAt_t, Function.update_noteq (by omega)]
    exact ih j (by omega)

/-- Entry `llh[0]` is never written: it keeps the `-inf` fill. -/
lemma stateAt_llh_zero : ∀ n, (stateAt M E R0 n).llh 0 = FP.ninf := by
  intro n
  induction n with
  | zero => rfl
  | succ n ih =>
    rw [stateAt_succ]
    simp only [emgmStep]
    rw [stateAt_t, Function.update_noteq (by omega)]
    exact ih

/-- Once written at iteration `j`, the entry `llh[j]` never changes. -/
lemma stateAt_llh_stable : ∀ n j, 1 ≤ j → j ≤ n →
    (stateAt M E R0 n).llh j = llhAt M E R0 j := by
  intro n
  induction n with
  | zero => intro j h1 h0; omega
  | succ n ih =>
    intro j h1 hj
    by_cases hcase : j = n + 1
    · subst hcase; rfl
    · rw [stateAt_succ]
      simp only [emgmStep]
      rw [stateAt_t, Function.update_noteq hcase]
      exact ih j h1 (by omega)

/-- Entry `llh[m]` is exactly the log-likelihood returned by the expectation
step of iteration `m` (whose input parameters come from the maximization
of the responsibilities of iteration `m - 1`). -/
lemma llhAt_eq (m : ℕ) (hm : 1 ≤ m) :
    llhAt M E R0 m = (E (M ((stateAt M E R0 (m - 1)).R))).2 := by
  obtain ⟨k, rfl⟩ : ∃ k, m = k + 1 := ⟨m - 1, by omega⟩
  show (stateAt M E R0 (k + 1)).llh (k + 1) = _
  rw [stateAt_succ]
  simp only [emgmStep]
  rw [stateAt_t, Function.update_same]
  simp

/-- Nothing is IEEE-less-than anything when the left side is `+inf`. -/
lemma FPlt_pinf (x : FP K) : FP.lt FP.pinf x = false := by cases x <;> rfl

/-- Nothing is IEEE-less-than anything when the left side is `nan`. -/
lemma FPlt_nan (x : FP K) : FP.lt FP.nan x = false := by cases x <;> rfl

/-- The convergence test always fails against the `-inf` sentinel. -/
lemma convTest_ninf_right (a : FP K) : convTest a FP.ninf = false := by
  cases a <;> simp [convTest, FP.sub, FP.neg, FP.add, FP.fabs, FPlt_pinf, FPlt_nan]

/-- The `converged` flag at iteration `n ≥ 2` is exactly the test on the
two latest log-likelihood entries; at `n = 2` the second entry is the
`-inf` sentinel `llh[0]` and the test always fails, so convergence can
only be declared from iteration 3 on, comparing two computed
log-likelihoods. -/
lemma stateAt_conv_char (n : ℕ) (hn : 2 ≤ n) :
    ((stateAt M E R0 n).conv = true ↔
      3 ≤ n ∧ convTest (llhAt M E R0 (n - 1)) (llhAt M E R0 (n - 2)) = true) := by
  obtain ⟨k, rfl⟩ : ∃ k, n = k + 1 := ⟨n - 1, by omega⟩
  have hk : 1 ≤ k := by omega
  rw [stateAt_succ]
  simp only [emgmStep]
  rw [stateAt_t, if_pos (by omega : 1 < k + 1)]
  have h1 : (stateAt M E R0 k).llh k = llhAt M E R0 k :=
    stateAt_llh_stable M E R0 k k hk le_rfl
  rcases Nat.lt_or_ge k 2 with hk2 | hk2
  · have hk1 : k = 1 := by omega
    subst hk1
    rw [h1]
    rw [show (1 : ℕ) - 1 = 0 from rfl, stateAt_llh_zero]
    rw [convTest_ninf_right]
    simp
  · have h2 : (stateAt M E R0 k).llh (k - 1) = llhAt M E R0 (k - 1) :=
      stateAt_llh_stable M E R0 k (k - 1) (by omega) (by omega)
    rw [h1, h2, show k + 1 - 1 = k from by omega, show k + 1 - 2 = k - 1 from by omega]
    simp [show 3 ≤ k + 1 from by omega]

/-- If the test first passes at iteration `N ≤ maxiter - 1`, the loop
runs exactly `N` iterations and returns the state of iteration `N`. -/
lemma emgmGo_stop (N : ℕ) (hN : N + 1 ≤ maxiter)
    (hconv : (stateAt M E R0 N).conv = true)
    (hmin : ∀ m, m < N → (stateAt M E R0 m).conv = false) :
    ∀ fuel r, r + fuel = maxiter → r ≤ N →
      emgmGo M E fuel (stateAt M E R0 r) = some (stateAt M E R0 N) := by
  intro fuel
  induction fuel with
  | zero =>
    intro r hr hrN
    exfalso
    simp only [maxiter] at hr hN
    omega
  | succ fuel ih =>
    intro r hr hrN
    rcases eq_or_lt_of_le hrN with rfl | hlt
    · simp only [emgmGo, hconv, if_true]
    · have hcf : (stateAt M E R0 r).conv = false := hmin r hlt
      have hbody : emgmBody M E (stateAt M E R0 r) = some (stateAt M E R0 (r + 1)) := by
        unfold emgmBody
        rw [stateAt_t, if_pos (by simp only [maxiter] at hr hN ⊢; omega)]
        rw [← stateAt_succ]
      simp only [emgmGo, hcf, Bool.false_eq_true, if_false, hbody]
      exact ih (r + 1) (by omega) (by omega)

/-- If the test never passes, iteration 500 reaches the out-of-range
write `llh[500]` and the loop aborts with `IndexError` (`none`). -/
lemma emgmGo_crash (hnever : ∀ m, (stateAt M E R0 m).conv = false) :
    ∀ fuel r, r + fuel = maxiter → 1 ≤ fuel →
      emgmGo M E fuel (stateAt M E R0 r) = none := by
  intro fuel
  induction fuel with
  | zero => intro r _ h1; omega
  | succ fuel ih =>
    intro r hr _
    cases fuel with
    | zero =>
      have hbody : emgmBody M E (stateAt M E R0 r) = none := by
        unfold emgmBody
        rw [stateAt_t, if_neg (by simp only [maxiter] at hr ⊢; omega)]
      simp only [emgmGo, hnever r, Bool.false_eq_true, if_false, hbody]
    | succ f =>
      have hbody : emgmBody M E (stateAt M E R0 r) = some (stateAt M E R0 (r + 1)) := by
        unfold emgmBody
        rw [stateAt_t, if_pos (by simp only [maxiter] at hr ⊢; omega)]
        rw [← stateAt_succ]
      simp only [emgmGo, hnever r, Bool.false_eq_true, if_false, hbody]
      exact ih (r + 1) (by omega) (by omega)

end DriverLemmas

/-! ### Concrete driver instances for C2 and C4 -/

/-- Trivial maximization step over `Unit` parameters. -/
def Mu : Unit → Unit := fun _ => ()

/-- Expectation step returning the constant log-likelihood `0`: the
convergence test `|0 - 0| < tol * |0|` never passes. -/
def Ez : Unit → Unit × FP ℚ := fun _ => ((), FP.val 0)

/-- Expectation step returning the constant log-likelihood `1`: the test
passes at iteration 3, the first one that compares two computed values. -/
def E1 : Unit → Unit × FP ℚ := fun _ => ((), FP.val 1)

/-- The test fails whenever both arguments are `-inf` or `0`. -/
lemma convTest_zero_cases (a b : FP ℚ) (ha : a = FP.ninf ∨ a = FP.val 0)
    (hb : b = FP.ninf ∨ b = FP.val 0) : convTest a b = false := by
  rcases ha with rfl | rfl <;> rcases hb with rfl | rfl <;> with_unfolding_all rfl

/-- Along the `Ez` run the flag stays false and every `llh` entry is
`-inf` or `0`. -/
lemma Ez_state : ∀ n : ℕ, (stateAt Mu Ez () n).conv = false
    ∧ ∀ j, ((stateAt Mu Ez () n).llh j = FP.ninf
        ∨ (stateAt Mu Ez () n).llh j = FP.val 0) := by
  intro n
  induction n with
  | zero => exact ⟨rfl, fun j => Or.inl rfl⟩
  | succ n ih =>
    constructor
    · rw [stateAt_succ]
      simp only [emgmStep]
      rw [stateAt_t]
      by_cases hn : 1 ≤ n
      · rw [if_pos (by omega)]
        exact convTest_zero_cases _ _ (ih.2 n) (ih.2 (n - 1))
      · have h0 : n = 0 := by omega
        subst h0
        rw [if_neg (by omega)]
        exact ih.1
    · intro j
      rw [stateAt_succ]
      simp only [emgmStep]
      rw [stateAt_t]
      by_cases hj : j = n + 1
      · subst hj
        rw [Function.update_same]
        exact Or.inr rfl
      · rw [Function.update_noteq hj]
        exact ih.2 j

/-- C2 (code bug): on a fit whose convergence test never passes, `EMGM`
does not terminate normally in the EXHAUSTED state: iteration `t = 500`
performs the out-of-range write `llh[500]` into the length-500 `llh`
array and the fit aborts with `IndexError` (modelled as `none`), so the
not-converged notice and the final return are never reached. -/
theorem emgm_iteration_cap_crash :
    (∀ n, (stateAt Mu Ez () n).conv = false) ∧ EMGM Mu Ez () = none := by
  have h : ∀ n, (stateAt Mu Ez () n).conv = false := fun n => (Ez_state n).1
  refine ⟨h, ?_⟩
  have := emgmGo_crash Mu Ez () h maxiter 0 (by omega) (by simp [maxiter])
  simpa [EMGM, stateAt] using this

/-- C4 amended: in every fit, the first iteration applies no convergence
test; the `converged` flag at iteration `n ≥ 2` is exactly the test
`|llh[n-1] - llh[n-2]| < tol |llh[n-1]|` on the two most recently
computed log-likelihoods (never passing at `n = 2`, where `llh[0]` is the
`-inf` fill); `llh[m]` is the value computed by expectation at iteration
`m`; and when the test first passes at an iteration `N ≤ 499` the loop
stops there, reports CONVERGED and returns the parameters of the `N`-th
maximization step.  (If the test first passes only at `N = 500`, the fit
instead dies on the out-of-range write `llh[500]`; see the
counterexample.) -/
theorem emgm_convergence_characterization (M : β → α) (E : α → β × FP K)
    (R0 : β) (n N m : ℕ) (hn : 2 ≤ n) (hm : 1 ≤ m) (hN2 : 2 ≤ N)
    (hN : N ≤ 499) (hNc : (stateAt M E R0 N).conv = true)
    (hNmin : ∀ j, j < N → (stateAt M E R0 j).conv = false) :
    (stateAt M E R0 1).conv = false
    ∧ ((stateAt M E R0 n).conv = true ↔
        3 ≤ n ∧ convTest (llhAt M E R0 (n - 1)) (llhAt M E R0 (n - 2)) = true)
    ∧ llhAt M E R0 m = (E (M ((stateAt M E R0 (m - 1)).R))).2
    ∧ EMGM M E R0 = some (stateAt M E R0 N)
    ∧ EMGMstatus (stateAt M E R0 N) = EMStatus.CONVERGED
    ∧ (stateAt M E R0 N).params = some (M ((stateAt M E R0 (N - 1)).R)) := by
  refine ⟨?_, stateAt_conv_char M E R0 n hn, llhAt_eq M E R0 m hm, ?_, ?_, ?_⟩
  · rw [stateAt_succ]
    simp only [emgmStep, stateAt_t]
    rfl
  · have := emgmGo_stop M E R0 N (by simp only [maxiter]; omega) hNc hNmin
      maxiter 0 (by omega) (by omega)
    simpa [EMGM, stateAt] using this
  · simp [EMGMstatus, hNc]
  · obtain ⟨k, rfl⟩ : ∃ k, N = k + 1 := ⟨N - 1, by omega⟩
    rw [stateAt_succ]
    simp only [emgmStep]
    simp

/-- C4 amended witness: with the constant log-likelihood 1, the fit
converges at iteration `N = 3` and returns that state. -/
theorem emgm_convergence_characterization_witness :
    (stateAt Mu E1 () 1).conv = false
    ∧ ((stateAt Mu E1 () 3).conv = true ↔
        3 ≤ 3 ∧ convTest (llhAt Mu E1 () 2) (llhAt Mu E1 () 1) = true)
    ∧ llhAt Mu E1 () 1 = (E1 (Mu ((stateAt Mu E1 () 0).R))).2
    ∧ EMGM Mu E1 () = some (stateAt Mu E1 () 3)
    ∧ EMGMstatus (stateAt Mu E1 () 3) = EMStatus.CONVERGED
    ∧ (stateAt Mu E1 () 3).params = some (Mu ((stateAt Mu E1 () 2).R)) :=
  emgm_convergence_characterization Mu E1 () 3 3 1 (by decide) (by decide)
    (by decide) (by decide) (by with_unfolding_all rfl)
    (by intro j hj; interval_cases j <;> with_unfolding_all rfl)

/-- Maximization stand-in that threads an iteration counter through the
responsibility slot. -/
def idM : ℕ → ℕ := fun r => r

/-- Log-likelihood schedule that makes the convergence test pass for the
first time exactly at iteration `t = 500`. -/
def fcap : ℕ → ℚ := fun j => if j ≤ 497 then (j : ℚ) + 1 else 498

/-- Expectation stand-in producing the schedule `fcap`. -/
def Ecap : ℕ → ℕ × FP ℚ := fun p => (p + 1, FP.val (fcap p))

/-- C4 counterexample: a fit whose convergence test first passes exactly
at iteration `t = 500`.  The `converged` flag is set there, but the same
iteration then performs the out-of-range write `llh[500]`, so `EMGM`
raises `IndexError` (`none`): it does not stop and return the latest
`(mu, Sigma, pi)` as the claim states. -/
theorem converged_at_cap_crash_counterexample :
    (stateAt idM Ecap 0 500).conv = true ∧ (EMGM idM Ecap 0).isNone = true := by
  constructor
  · with_unfolding_all rfl
  · with_unfolding_all rfl

/-! ### Exact-arithmetic embedding of `maximization` -/

/-- The source `maximization(X, W, R)`, for the square case `k = d` in which numpy
accepts the division `np.matmul(X, R) / nk.reshape(-1, 1)`: the shapes
`(d, k)` and `(k, 1)` broadcast only when `d = k` (or `k = 1`; any other
shape raises a broadcast `ValueError`), and the broadcast then divides
entry `(a, j)` by `nk[a]` — the row index, not the component index (the
TODO comment on that source line questions the `reshape`).  The rest
follows the source: `R' = W ⊙ R` (elementwise), `nk_j = sum_i R'[i,j]`,
`pi_j = nk_j / sum W`, and for each component `j` the covariance
`Sigma_j = (Xo Xo^T) / nk_j + 1e-6 I` with `Xo = (X - mu_j) ⊙ sqrt R'_j`
(columns scaled elementwise).  Returns `(mu, Sigma, pi)`. -/
noncomputable def maximization {d n : ℕ} (X : Matrix (Fin d) (Fin n) ℝ)
    (W : Fin n → ℝ) (R : Matrix (Fin n) (Fin d) ℝ) :
    Matrix (Fin d) (Fin d) ℝ × (Fin d → Matrix (Fin d) (Fin d) ℝ) × (Fin d → ℝ) :=
  let Rw : Matrix (Fin n) (Fin d) ℝ := fun i j => W i * R i j
  let nk : Fin d → ℝ := fun j => ∑ i, Rw i j
  let w : Fin d → ℝ := fun j => nk j / ∑ i, W i
  let mu : Matrix (Fin d) (Fin d) ℝ := fun a j => (∑ i, X a i * Rw i j) / nk a
  let sqrtR : Matrix (Fin n) (Fin d) ℝ := fun i j => Real.sqrt (Rw i j)
  let Sigma : Fin d → Matrix (Fin d) (Fin d) ℝ := fun j => fun a b =>
    (∑ i, ((X a i - mu a j) * sqrtR i j) * ((X b i - mu b j) * sqrtR i j)) / nk j
      + (if a = b then 1e-6 else 0)
  (mu, Sigma, w)

/-- Input exhibiting the C1 mean bug: `d = k = 2`, one sample. -/
noncomputable def Xc1 : Matrix (Fin 2) (Fin 1) ℝ := !![1; 2]

/-- Unit weight for the single sample. -/
noncomputable def Wc1 : Fin 1 → ℝ := fun _ => 1

/-- Responsibilities `[1/4, 3/4]` of the single sample. -/
noncomputable def Rc1 : Matrix (Fin 1) (Fin 2) ℝ := !![1/4, 3/4]

/-- C1 (code bug): at `X = [[1],[2]]`, `W = [1]`, `R = [[1/4, 3/4]]`, the
code returns `mu[0,1] = 3` — entry `(a,j)` of `X·R'` is divided by
`nk[a]`, not `nk[j]` — while the claimed weighted centroid
`(X · R'[:,1]) / nk[1]` has first coordinate `1`. -/
theorem maximization_mu_axis_bug :
    (maximization Xc1 Wc1 Rc1).1 0 1 = 3
    ∧ (∑ i, Xc1 0 i * (Wc1 i * Rc1 i 1)) / (∑ i, Wc1 i * Rc1 i 1) = 1 := by
  constructor
  · simp only [maximization, Xc1, Wc1, Rc1, Fin.sum_univ_one]
    norm_num [Matrix.cons_val_zero, Matrix.cons_val_one, Matrix.head_cons]
  · simp only [Xc1, Wc1, Rc1, Fin.sum_univ_one]
    norm_num [Matrix.cons_val_zero, Matrix.cons_val_one, Matrix.head_cons]

/-- C7: the mixing weights returned by `maximization` are
`pi_j = nk_j / sum W`, and they sum to 1 whenever the rows of `R` sum
to 1 and the weights have positive total mass. -/
theorem maximization_mixing_weights {d n : ℕ} (X : Matrix (Fin d) (Fin n) ℝ)
    (W : Fin n → ℝ) (R : Matrix (Fin n) (Fin d) ℝ) (j : Fin d)
    (_hW : ∀ i, 0 ≤ W i) (hWs : 0 < ∑ i, W i)
    (hR : ∀ i, ∑ j2, R i j2 = 1) :
    (maximization X W R).2.2 j = (∑ i, W i * R i j) / (∑ i, W i)
    ∧ ∑ j2, (maximization X W R).2.2 j2 = 1 := by
  refine ⟨rfl, ?_⟩
  have hsum : ∑ j2, ∑ i, W i * R i j2 = ∑ i, W i := by
    rw [Finset.sum_comm]
    refine Finset.sum_congr rfl ?_
    intro i _
    rw [← Finset.mul_sum, hR i, mul_one]
  show ∑ j2, (∑ i, W i * R i j2) / (∑ i, W i) = 1
  rw [← Finset.sum_div, hsum, div_self (ne_of_gt hWs)]

/-- Simple concrete maximization input (`d = n = k = 1`). -/
def Xc8 : Matrix (Fin 1) (Fin 1) ℝ := fun _ _ => 0

/-- Unit weight. -/
def Wc8 : Fin 1 → ℝ := fun _ => 1

/-- Full responsibility of the unique sample for the unique component. -/
def Rc8 : Matrix (Fin 1) (Fin 1) ℝ := fun _ _ => 1

/-- C7 witness at the one-point input. -/
theorem maximization_mixing_weights_witness :
    (maximization Xc8 Wc8 Rc8).2.2 0 = (∑ i, Wc8 i * Rc8 i 0) / (∑ i, Wc8 i)
    ∧ ∑ j2, (maximization Xc8 Wc8 Rc8).2.2 j2 = 1 :=
  maximization_mixing_weights Xc8 Wc8 Rc8 0 (fun _ => by norm_num [Wc8])
    (by norm_num [Wc8, Fin.sum_univ_one])
    (fun i => by norm_num [Rc8, Fin.sum_univ_one])

/-- A matrix of the form `(Y Yᵀ) / c + ε I` with `c, ε > 0` is symmetric
and positive-definite. -/
lemma sym_posdef_of_outer {d n : ℕ} (M : Matrix (Fin d) (Fin d) ℝ)
    (Y : Matrix (Fin d) (Fin n) ℝ) (c e : ℝ) (hc : 0 < c) (he : 0 < e)
    (hM : ∀ a b, M a b = (∑ i, Y a i * Y b i) / c + (if a = b then e else 0)) :
    M.IsSymm ∧ M.PosDef := by
  have hsym : M.IsSymm := by
    apply Matrix.IsSymm.ext
    intro a b
    rw [hM, hM]
    congr 1
    · congr 1
      exact Finset.sum_congr rfl (fun i _ => mul_comm _ _)
    · by_cases hab : a = b
      · simp [hab]
      · rw [if_neg (Ne.symm hab), if_neg hab]
  refine ⟨hsym, ?_, ?_⟩
  · rw [Matrix.IsHermitian, Matrix.conjTranspose_eq_transpose_of_trivial]
    exact hsym
  · intro x hx
    have hmv : ∀ a, (M.mulVec x) a = (∑ b, (∑ i, Y a i * Y b i) * x b) / c + e * x a := by
      intro a
      show ∑ b, M a b * x b = _
      have h0 : ∀ b, M a b * x b
          = (∑ i, Y a i * Y b i) * x b / c + (if a = b then e * x b else 0) := by
        intro b
        rw [hM]
        rw [add_mul, div_mul_eq_mul_div, ite_mul, zero_mul]
      rw [Finset.sum_congr rfl (fun b _ => h0 b), Finset.sum_add_distrib,
        ← Finset.sum_div, Finset.sum_ite_eq]
      simp
    have hq : Matrix.dotProduct (star x) (M.mulVec x)
        = (∑ i, (∑ a, x a * Y a i) ^ 2) / c + e * ∑ a, x a ^ 2 := by
      rw [star_trivial]
      show ∑ a, x a * (M.mulVec x) a = _
      have hterm : ∀ a, x a * (M.mulVec x) a
          = (∑ b, ∑ i, (x a * Y a i) * (x b * Y b i)) / c + e * x a ^ 2 := by
        intro a
        rw [hmv a, mul_add]
        congr 1
        · rw [mul_div_assoc' (x a), Finset.mul_sum]
          congr 1
          refine Finset.sum_congr rfl ?_
          intro b _
          rw [Finset.sum_mul, Finset.mul_sum]
          exact Finset.sum_congr rfl (fun i _ => by ring)
        · ring
      rw [Finset.sum_congr rfl (fun a _ => hterm a), Finset.sum_add_distrib,
        ← Finset.sum_div, ← Finset.mul_sum]
      congr 2
      calc ∑ a, ∑ b, ∑ i, (x a * Y a i) * (x b * Y b i)
          = ∑ a, ∑ i, ∑ b, (x a * Y a i) * (x b * Y b i) :=
            Finset.sum_congr rfl (fun a _ => Finset.sum_comm)
        _ = ∑ i, ∑ a, ∑ b, (x a * Y a i) * (x b * Y b i) := Finset.sum_comm
        _ = ∑ i, (∑ a, x a * Y a i) ^ 2 :=
            Finset.sum_congr rfl (fun i _ => by rw [sq, Finset.sum_mul_sum])
    rw [hq]
    obtain ⟨a0, ha0⟩ : ∃ a, x a ≠ 0 := Function.ne_iff.mp hx
    have h2 : 0 < ∑ a, x a ^ 2 := by
      refine Finset.sum_pos' (fun a _ => sq_nonneg (x a)) ?_
      exact ⟨a0, Finset.mem_univ a0, by positivity⟩
    have h1 : 0 ≤ (∑ i, (∑ a, x a * Y a i) ^ 2) / c :=
      div_nonneg (Finset.sum_nonneg (fun i _ => sq_nonneg _)) hc.le
    have := mul_pos he h2
    linarith

/-- C8: for every component `j` with positive effective mass `nk_j`, the
covariance returned by `maximization` is symmetric and positive-definite
(the outer product is positive semi-definite and the `1e-6` diagonal
prior makes it definite), regardless of the values of `mu`. -/
theorem maximization_sigma_sym_posdef {d n : ℕ} (X : Matrix (Fin d) (Fin n) ℝ)
    (W : Fin n → ℝ) (R : Matrix (Fin n) (Fin d) ℝ) (j : Fin d)
    (hnk : 0 < ∑ i, W i * R i j) :
    ((maximization X W R).2.1 j).IsSymm ∧ ((maximization X W R).2.1 j).PosDef :=
  sym_posdef_of_outer _
    (fun a i => (X a i - (maximization X W R).1 a j) * Real.sqrt (W i * R i j))
    _ _ hnk (by norm_num) (fun a b => rfl)

/-- C8 witness at the one-point input, where `nk_0 = 1 > 0`. -/
theorem maximization_sigma_sym_posdef_witness :
    ((maximization Xc8 Wc8 Rc8).2.1 0).IsSymm
    ∧ ((maximization Xc8 Wc8 Rc8).2.1 0).PosDef :=
  maximization_sigma_sym_posdef Xc8 Wc8 Rc8 0
    (by norm_num [Wc8, Rc8, Fin.sum_univ_one])

/-! ### `loggausspdf` and the Cholesky factorization -/

/-- Mapping preserves `isSome`: `(o.map f).isSome = o.isSome`. -/
lemma option_isSome_map {A B : Type} (f : A → B) (o : Option A) :
    (o.map f).isSome = o.isSome := by cases o <;> rfl

/-- One step of the Cholesky recursion: after eliminating the first
row/column of `A = [[a, bᵀ], [b, A']]` the trailing block becomes the
Schur complement `A' - (b / sqrt a) (b / sqrt a)ᵀ`. -/
noncomputable def schurStep {m : ℕ} (A : Matrix (Fin (m + 1)) (Fin (m + 1)) ℝ) :
    Matrix (Fin m) (Fin m) ℝ :=
  fun i j => A i.succ j.succ
    - (A i.succ 0 / Real.sqrt (A 0 0)) * (A j.succ 0 / Real.sqrt (A 0 0))

/-- Model of `np.linalg.cholesky` (LAPACK `dpotrf`, lower triangle): the standard
elimination recursion; every pivot must be strictly positive, otherwise
the routine raises `LinAlgError`, modelled as `none`.  On success the
value is the lower-triangular factor `L`. -/
noncomputable def cholesky : (m : ℕ) → Matrix (Fin m) (Fin m) ℝ →
    Option (Matrix (Fin m) (Fin m) ℝ)
  | 0, _ => some 0
  | m + 1, A =>
    if 0 < A 0 0 then
      (cholesky m (schurStep A)).map (fun L =>
        Matrix.of (Fin.cons
          (Fin.cons (Real.sqrt (A 0 0)) (fun _ => 0))
          (fun i => Fin.cons (A i.succ 0 / Real.sqrt (A 0 0)) (L i))))
    else none

/-- If the factorization of a symmetric matrix succeeds, the matrix was
positive-definite: each pivot is the (positive) Schur complement of a
principal block, and the quadratic form decomposes accordingly. -/
lemma cholesky_isSome_posDef : ∀ (m : ℕ) (A : Matrix (Fin m) (Fin m) ℝ),
    A.IsSymm → (cholesky m A).isSome = true → ∀ x : Fin m → ℝ, x ≠ 0 →
      0 < Matrix.dotProduct x (A.mulVec x) := by
  intro m
  induction m with
  | zero =>
    intro A _ _ x hx
    exact absurd (funext fun i => i.elim0) hx
  | succ m ih =>
    intro A hA hsome x hx
    have hA' : ∀ p q, A q p = A p q := Matrix.IsSymm.ext_iff.mp hA
    unfold cholesky at hsome
    by_cases hpiv : 0 < A 0 0
    swap
    · rw [if_neg hpiv] at hsome; simp at hsome
    rw [if_pos hpiv, option_isSome_map] at hsome
    have ha : Real.sqrt (A 0 0) * Real.sqrt (A 0 0) = A 0 0 :=
      Real.mul_self_sqrt hpiv.le
    have hS : (schurStep A).IsSymm := by
      apply Matrix.IsSymm.ext
      intro i j
      unfold schurStep
      rw [hA' j.succ i.succ]
      ring
    have ihS := ih (schurStep A) hS hsome
    set v0 := x 0 with hv0
    set w : Fin m → ℝ := fun i => x i.succ with hw
    set b : Fin m → ℝ := fun i => A i.succ 0 with hb
    set t := ∑ i, b i * w i with ht
    set q := Matrix.dotProduct w ((schurStep A).mulVec w) with hq
    have hSentry : ∀ i j, A i.succ j.succ
        = schurStep A i j + b i * b j / A 0 0 := by
      intro i j
      unfold schurStep
      rw [div_mul_div_comm, ha]
      simp [hb]
    have hmain : Matrix.dotProduct x (A.mulVec x)
        = A 0 0 * v0 ^ 2 + 2 * v0 * t + q + t ^ 2 / A 0 0 := by
      have expand : Matrix.dotProduct x (A.mulVec x)
          = x 0 * (A 0 0 * x 0 + ∑ j : Fin m, A 0 j.succ * x j.succ)
            + ∑ i : Fin m, x i.succ *
                (A i.succ 0 * x 0 + ∑ j : Fin m, A i.succ j.succ * x j.succ) := by
        simp only [Matrix.dotProduct, Matrix.mulVec]
        rw [Fin.sum_univ_succ]
        congr 1
        · congr 1
          rw [Fin.sum_univ_succ]
        · refine Finset.sum_congr rfl ?_
          intro i _
          congr 1
          rw [Fin.sum_univ_succ]
      have hrow0 : ∑ j : Fin m, A 0 j.succ * x j.succ = t := by
        rw [ht]
        refine Finset.sum_congr rfl ?_
        intro j _
        rw [hA' j.succ 0]
      have hrow : ∀ i : Fin m, ∑ j : Fin m, A i.succ j.succ * x j.succ
          = (∑ j : Fin m, schurStep A i j * w j) + b i * t / A 0 0 := by
        intro i
        have h1 : ∀ j : Fin m, A i.succ j.succ * x j.succ
            = schurStep A i j * w j + b i * b j / A 0 0 * w j := by
          intro j
          rw [hSentry i j, add_mul]
        rw [Finset.sum_congr rfl (fun j _ => h1 j), Finset.sum_add_distrib]
        congr 1
        have h2 : b i * t / A 0 0 = ∑ j : Fin m, b i * b j / A 0 0 * w j := by
          rw [ht, Finset.mul_sum, Finset.sum_div]
          exact Finset.sum_congr rfl (fun j _ => by ring)
        rw [h2]
      have hqq : q = ∑ i : Fin m, w i * ∑ j : Fin m, schurStep A i j * w j := by
        rw [hq]
        simp only [Matrix.dotProduct, Matrix.mulVec]
      rw [expand, hrow0, Finset.sum_congr rfl (fun i _ => by rw [hrow i])]
      have hsplit : ∑ i : Fin m, x i.succ *
          (A i.succ 0 * x 0 + ((∑ j : Fin m, schurStep A i j * w j) + b i * t / A 0 0))
          = (∑ i : Fin m, w i * b i) * x 0
            + (∑ i : Fin m, w i * ∑ j : Fin m, schurStep A i j * w j)
            + (∑ i : Fin m, w i * b i) * t / A 0 0 := by
        rw [Finset.sum_mul, Finset.sum_mul, Finset.sum_div, ← Finset.sum_add_distrib,
          ← Finset.sum_add_distrib]
        refine Finset.sum_congr rfl ?_
        intro i _
        simp only [hw, hb]
        ring
      rw [hsplit, ← hqq]
      have hwb : ∑ i : Fin m, w i * b i = t := by
        rw [ht]
        exact Finset.sum_congr rfl (fun i _ => mul_comm _ _)
      rw [hwb]
      simp only [hv0]
      field_simp
      ring
    rw [hmain]
    have hkey : A 0 0 * v0 ^ 2 + 2 * v0 * t + t ^ 2 / A 0 0
        = (A 0 0 * v0 + t) ^ 2 / A 0 0 := by
      field_simp
      ring
    by_cases hw0 : w = 0
    · have ht0 : t = 0 := by
        rw [ht, hw0]
        simp
      have hq0 : q = 0 := by
        rw [hq, hw0, Matrix.zero_dotProduct]
      have hv : v0 ≠ 0 := by
        intro h0
        apply hx
        funext p
        refine Fin.cases ?_ ?_ p
        · exact h0
        · intro i
          exact congrFun hw0 i
      rw [ht0, hq0]
      have h2 : 0 < v0 ^ 2 := by positivity
      have h3 : 0 < A 0 0 * v0 ^ 2 := mul_pos hpiv h2
      have h4 : (2 : ℝ) * v0 * 0 = 0 := by ring
      have h5 : (0 : ℝ) ^ 2 / A 0 0 = 0 := by simp
      linarith
    · have hqpos : 0 < q := ihS w hw0
      have h2 : 0 ≤ A 0 0 * v0 ^ 2 + 2 * v0 * t + t ^ 2 / A 0 0 := by
        rw [hkey]
        exact div_nonneg (sq_nonneg _) hpiv.le
      linarith

/-- The source `loggausspdf(X, mu, Sigma)`: center `X` at `mu`; factor
`Sigma = L Lᵀ` by `np.linalg.cholesky` (raising `LinAlgError` if the
factorization fails) and set `U = Lᵀ` (the `.T.conj()` of the source;
conjugation is the identity on reals); whiten by solving `Uᵀ Q = Xc`
(`np.linalg.solve`, i.e. `Q = (Uᵀ)⁻¹ Xc`); return
`y_i = -(c + q_i) / 2` with quadratic term `q_i = sum_a Q[a,i]²` and
normalization `c = d log(2π) + 2 sum_a log U[a,a]`. -/
noncomputable def loggausspdf {d n : ℕ} (X : Matrix (Fin d) (Fin n) ℝ)
    (mu : Fin d → ℝ) (Sigma : Matrix (Fin d) (Fin d) ℝ) : Option (Fin n → ℝ) :=
  (cholesky d Sigma).map (fun L =>
    let Xc : Matrix (Fin d) (Fin n) ℝ := fun a i => X a i - mu a
    let U := L.transpose
    let Q := (U.transpose)⁻¹ * Xc
    let q : Fin n → ℝ := fun i => ∑ a, Q a i * Q a i
    let c : ℝ := d * Real.log (2 * Real.pi) + 2 * ∑ a, Real.log (U a a)
    fun i => -(c + q i) / 2)

/-- C9: on every symmetric covariance that is not positive-definite the
Cholesky factorization fails, and `loggausspdf` propagates the failure
(`none`) instead of returning any density values: were the factorization
to succeed, the successful pivots would certify positive-definiteness. -/
theorem loggausspdf_fails_on_nonposdef {d n : ℕ} (X : Matrix (Fin d) (Fin n) ℝ)
    (mu : Fin d → ℝ) (Sigma : Matrix (Fin d) (Fin d) ℝ)
    (hsym : Sigma.IsSymm) (hnpd : ¬ Sigma.PosDef) :
    loggausspdf X mu Sigma = none := by
  unfold loggausspdf
  cases ho : cholesky d Sigma with
  | none => rfl
  | some L =>
    exfalso
    apply hnpd
    constructor
    · rw [Matrix.IsHermitian, Matrix.conjTranspose_eq_transpose_of_trivial]
      exact hsym
    · intro x hx
      rw [star_trivial]
      refine cholesky_isSome_posDef d Sigma hsym ?_ x hx
      rw [ho]
      rfl

/-- Zero data point in one dimension. -/
noncomputable def Xc9 : Matrix (Fin 1) (Fin 1) ℝ := fun _ _ => 0

/-- Zero mean. -/
noncomputable def muc9 : Fin 1 → ℝ := fun _ => 0

/-- The 1×1 covariance `[-1]`: symmetric but not positive-definite. -/
noncomputable def Sigc9 : Matrix (Fin 1) (Fin 1) ℝ := fun _ _ => -1

/-- C9 witness: `loggausspdf` on the non-positive-definite covariance
`[-1]` raises (returns `none`). -/
theorem loggausspdf_fails_on_nonposdef_witness :
    loggausspdf Xc9 muc9 Sigc9 = none :=
  loggausspdf_fails_on_nonposdef Xc9 muc9 Sigc9
    (Matrix.IsSymm.ext fun _ _ => rfl)
    (by
      intro h
      have h1 : (fun _ => (1 : ℝ)) ≠ (0 : Fin 1 → ℝ) := by
        intro h0
        have := congrFun h0 0
        norm_num at this
      have h2 := h.2 (fun _ => (1 : ℝ)) h1
      rw [star_trivial] at h2
      simp only [Sigc9, Matrix.dotProduct, Matrix.mulVec, Fin.sum_univ_one] at h2
      norm_num at h2)

/-! ### Exact-arithmetic embedding of `expectation` -/

/-- One row slice of `logsumexp(logpdf, 1)` in the all-finite regime of
exact arithmetic, where the `np.isfinite` fix-up never fires: with `y`
the row maximum, the result is `y + log (sum_j exp (v j - y))`. -/
noncomputable def logsumexpR {k : ℕ} [NeZero k] (v : Fin k → ℝ) : ℝ :=
  Finset.univ.sup' Finset.univ_nonempty v
    + Real.log (∑ j, Real.exp (v j - Finset.univ.sup' Finset.univ_nonempty v))

/-- The matrix `logpdf[i,j] = loggausspdf(X, mu[:,j], Sigma_j)[i] + log pi_j`
built by `expectation` column by column (the default value of a failed
`loggausspdf` is immaterial: it is only read on the success branch). -/
noncomputable def logpdfOf {d n k : ℕ} (X : Matrix (Fin d) (Fin n) ℝ)
    (mu : Matrix (Fin d) (Fin k) ℝ) (si : Fin k → Matrix (Fin d) (Fin d) ℝ)
    (piw : Fin k → ℝ) : Matrix (Fin n) (Fin k) ℝ :=
  fun i j => ((loggausspdf X (fun a => mu a j) (si j)).getD (fun _ => 0)) i
    + Real.log (piw j)

/-- The per-sample log-evidence `T = logsumexp(logpdf, 1)`. -/
noncomputable def TOf {d n k : ℕ} [NeZero k] (X : Matrix (Fin d) (Fin n) ℝ)
    (mu : Matrix (Fin d) (Fin k) ℝ) (si : Fin k → Matrix (Fin d) (Fin d) ℝ)
    (piw : Fin k → ℝ) (i : Fin n) : ℝ :=
  logsumexpR (fun j => logpdfOf X mu si piw i j)

/-- The source `expectation(X, W, mu, si, pi)`: evaluate each component's
log-density through `loggausspdf` (a raised factorization error
propagates: `none`), add `log pi`, reduce rows by `logsumexp` into the
log-evidence `T`, and return the responsibilities `R = exp(logpdf - T)`
together with `llh = sum(W * T) / sum(W)`. -/
noncomputable def expectation {d n k : ℕ} [NeZero k]
    (X : Matrix (Fin d) (Fin n) ℝ) (W : Fin n → ℝ)
    (mu : Matrix (Fin d) (Fin k) ℝ) (si : Fin k → Matrix (Fin d) (Fin d) ℝ)
    (piw : Fin k → ℝ) : Option (Matrix (Fin n) (Fin k) ℝ × ℝ) :=
  if ∀ j, (loggausspdf X (fun a => mu a j) (si j)).isSome = true then
    some (fun i j => Real.exp (logpdfOf X mu si piw i j - TOf X mu si piw i),
      (∑ i, W i * TOf X mu si piw i) / ∑ i, W i)
  else none

/-- C6: whenever `expectation` returns, the responsibility matrix is
exactly `exp(logpdf - T)` with `T` the row log-sum-exp of `logpdf`, and
therefore every row sums to 1 in exact arithmetic. -/
theorem expectation_rows_sum_one {d n k : ℕ} [NeZero k]
    (X : Matrix (Fin d) (Fin n) ℝ) (W : Fin n → ℝ)
    (mu : Matrix (Fin d) (Fin k) ℝ) (si : Fin k → Matrix (Fin d) (Fin d) ℝ)
    (piw : Fin k → ℝ) (R : Matrix (Fin n) (Fin k) ℝ) (l : ℝ)
    (i : Fin n) (j : Fin k)
    (h : expectation X W mu si piw = some (R, l)) :
    R i j = Real.exp (logpdfOf X mu si piw i j - TOf X mu si piw i)
    ∧ ∑ j2, R i j2 = 1 := by
  have hR : R = fun i j =>
      Real.exp (logpdfOf X mu si piw i j - TOf X mu si piw i) := by
    unfold expectation at h
    by_cases hc : ∀ j, (loggausspdf X (fun a => mu a j) (si j)).isSome = true
    · rw [if_pos hc] at h
      exact (congrArg Prod.fst (Option.some.inj h)).symm
    · rw [if_neg hc] at h
      exact absurd h (by simp)
  subst hR
  refine ⟨rfl, ?_⟩
  have hspos : 0 < ∑ j2, Real.exp (logpdfOf X mu si piw i j2
      - Finset.univ.sup' Finset.univ_nonempty (fun j2 => logpdfOf X mu si piw i j2)) :=
    Finset.sum_pos (fun j2 _ => Real.exp_pos _) Finset.univ_nonempty
  have hT : Real.exp (TOf X mu si piw i)
      = ∑ j2, Real.exp (logpdfOf X mu si piw i j2) := by
    unfold TOf logsumexpR
    rw [Real.exp_add, Real.exp_log hspos, Finset.mul_sum]
    refine Finset.sum_congr rfl ?_
    intro j2 _
    rw [← Real.exp_add]
    congr 1
    ring
  have hstep : ∀ j2 : Fin k,
      Real.exp (logpdfOf X mu si piw i j2 - TOf X mu si piw i)
      = Real.exp (logpdfOf X mu si piw i j2) / Real.exp (TOf X mu si piw i) :=
    fun j2 => Real.exp_sub _ _
  rw [Finset.sum_congr rfl (fun j2 _ => hstep j2), ← Finset.sum_div, ← hT,
    div_self (ne_of_gt (Real.exp_pos _))]

/-- Witness data: one sample at the origin, one component with zero mean,
identity covariance and mixing weight one. -/
noncomputable def Xw6 : Matrix (Fin 1) (Fin 1) ℝ := fun _ _ => 0

/-- Unit sample weight. -/
noncomputable def Ww6 : Fin 1 → ℝ := fun _ => 1

/-- Zero component mean. -/
noncomputable def muw6 : Matrix (Fin 1) (Fin 1) ℝ := fun _ _ => 0

/-- Identity covariance. -/
noncomputable def siw6 : Fin 1 → Matrix (Fin 1) (Fin 1) ℝ := fun _ _ _ => 1

/-- Mixing weight one. -/
noncomputable def piw6 : Fin 1 → ℝ := fun _ => 1

/-- The responsibilities `expectation` returns on the witness data. -/
noncomputable def Rw6 : Matrix (Fin 1) (Fin 1) ℝ :=
  fun i j => Real.exp (logpdfOf Xw6 muw6 siw6 piw6 i j - TOf Xw6 muw6 siw6 piw6 i)

/-- The log-likelihood `expectation` returns on the witness data. -/
noncomputable def lw6 : ℝ :=
  (∑ i, Ww6 i * TOf Xw6 muw6 siw6 piw6 i) / ∑ i, Ww6 i

/-- The factorization of the witness covariance succeeds. -/
lemma chol_siw6_isSome : ∀ j : Fin 1,
    (loggausspdf Xw6 (fun a => muw6 a j) (siw6 j)).isSome = true := by
  intro j
  unfold loggausspdf
  rw [option_isSome_map]
  show (cholesky 1 (siw6 j)).isSome = true
  unfold cholesky
  rw [if_pos (by norm_num [siw6] : (0:ℝ) < siw6 j 0 0)]
  rfl

/-- The function `expectation` succeeds on the witness data with value `(Rw6, lw6)`. -/
lemma expectation_w6 : expectation Xw6 Ww6 muw6 siw6 piw6 = some (Rw6, lw6) := by
  unfold expectation
  rw [if_pos chol_siw6_isSome]
  rfl

/-- C6 witness: the returned row of responsibilities matches
`exp(logpdf - T)` and sums to 1. -/
theorem expectation_rows_sum_one_witness :
    Rw6 0 0 = Real.exp (logpdfOf Xw6 muw6 siw6 piw6 0 0 - TOf Xw6 muw6 siw6 piw6 0)
    ∧ ∑ j2, Rw6 0 j2 = 1 :=
  expectation_rows_sum_one Xw6 Ww6 muw6 siw6 piw6 Rw6 lw6 0 0 expectation_w6

/-- C10: rescaling the weight vector by a positive constant `c` changes
neither helper's output: in `maximization` the factor `c` cancels
between `X·R'` (resp. `Xo Xoᵀ`) and `nk`, and between `nk` and `sum W`;
in `expectation` it cancels inside `llh = sum(W*T)/sum(W)` and `R` does
not read `W` at all. -/
theorem weight_rescale_invariance {d n d2 n2 k : ℕ} [NeZero k] (c : ℝ)
    (hc : 0 < c)
    (X : Matrix (Fin d) (Fin n) ℝ) (W : Fin n → ℝ) (R : Matrix (Fin n) (Fin d) ℝ)
    (X2 : Matrix (Fin d2) (Fin n2) ℝ) (W2 : Fin n2 → ℝ)
    (mu : Matrix (Fin d2) (Fin k) ℝ) (si : Fin k → Matrix (Fin d2) (Fin d2) ℝ)
    (piw : Fin k → ℝ) :
    maximization X (fun i => c * W i) R = maximization X W R
    ∧ expectation X2 (fun i => c * W2 i) mu si piw
        = expectation X2 W2 mu si piw := by
  have hsq : Real.sqrt c * Real.sqrt c = c := Real.mul_self_sqrt hc.le
  constructor
  · unfold maximization
    simp only [Prod.mk.injEq]
    have hnk : ∀ j : Fin d, ∑ i, c * W i * R i j = c * ∑ i, W i * R i j := by
      intro j
      rw [Finset.mul_sum]
      exact Finset.sum_congr rfl (fun i _ => by ring)
    have hmu : ∀ a j : Fin d,
        (∑ i, X a i * (c * W i * R i j)) / ∑ i, c * W i * R i a
        = (∑ i, X a i * (W i * R i j)) / ∑ i, W i * R i a := by
      intro a j
      have h1 : ∑ i, X a i * (c * W i * R i j) = c * ∑ i, X a i * (W i * R i j) := by
        rw [Finset.mul_sum]
        exact Finset.sum_congr rfl (fun i _ => by ring)
      rw [h1, hnk a, mul_div_mul_left _ _ (ne_of_gt hc)]
    refine ⟨?_, ?_, ?_⟩
    · funext a j
      exact hmu a j
    · funext j a b
      rw [hmu a j, hmu b j]
      congr 1
      have hterm : ∀ i : Fin n,
          ((X a i - (∑ i2, X a i2 * (W i2 * R i2 j)) / ∑ i2, W i2 * R i2 a)
              * Real.sqrt (c * W i * R i j))
            * ((X b i - (∑ i2, X b i2 * (W i2 * R i2 j)) / ∑ i2, W i2 * R i2 b)
              * Real.sqrt (c * W i * R i j))
          = c * (((X a i - (∑ i2, X a i2 * (W i2 * R i2 j)) / ∑ i2, W i2 * R i2 a)
              * Real.sqrt (W i * R i j))
            * ((X b i - (∑ i2, X b i2 * (W i2 * R i2 j)) / ∑ i2, W i2 * R i2 b)
              * Real.sqrt (W i * R i j))) := by
        intro i
        rw [mul_assoc c (W i) (R i j), Real.sqrt_mul hc.le]
        calc ((X a i - (∑ i2, X a i2 * (W i2 * R i2 j)) / ∑ i2, W i2 * R i2 a)
              * (Real.sqrt c * Real.sqrt (W i * R i j)))
            * ((X b i - (∑ i2, X b i2 * (W i2 * R i2 j)) / ∑ i2, W i2 * R i2 b)
              * (Real.sqrt c * Real.sqrt (W i * R i j)))
            = (Real.sqrt c * Real.sqrt c) *
              (((X a i - (∑ i2, X a i2 * (W i2 * R i2 j)) / ∑ i2, W i2 * R i2 a)
                * Real.sqrt (W i * R i j))
              * ((X b i - (∑ i2, X b i2 * (W i2 * R i2 j)) / ∑ i2, W i2 * R i2 b)
                * Real.sqrt (W i * R i j))) := by ring
          _ = _ := by rw [hsq]
      rw [Finset.sum_congr rfl (fun i _ => hterm i), ← Finset.mul_sum, hnk j,
        mul_div_mul_left _ _ (ne_of_gt hc)]
    · funext j
      rw [hnk j, show ∑ i, c * W i = c * ∑ i, W i from by rw [Finset.mul_sum],
        mul_div_mul_left _ _ (ne_of_gt hc)]
  · unfold expectation
    by_cases hcond : ∀ j, (loggausspdf X2 (fun a => mu a j) (si j)).isSome = true
    · rw [if_pos hcond, if_pos hcond]
      have h1 : ∑ i, c * W2 i * TOf X2 mu si piw i
          = c * ∑ i, W2 i * TOf X2 mu si piw i := by
        rw [Finset.mul_sum]
        exact Finset.sum_congr rfl (fun i _ => by ring)
      have h2 : ∑ i, c * W2 i = c * ∑ i, W2 i := by rw [Finset.mul_sum]
      rw [h1, h2, mul_div_mul_left _ _ (ne_of_gt hc)]
    · rw [if_neg hcond, if_neg hcond]

/-- C10 witness at `c = 2` and the one-point inputs. -/
theorem weight_rescale_invariance_witness :
    maximization Xc8 (fun i => 2 * Wc8 i) Rc8 = maximization Xc8 Wc8 Rc8
    ∧ expectation Xw6 (fun i => 2 * Ww6 i) muw6 siw6 piw6
        = expectation Xw6 Ww6 muw6 siw6 piw6 :=
  weight_rescale_invariance 2 (by norm_num) Xc8 Wc8 Rc8 Xw6 Ww6 muw6 siw6 piw6
